import Mathlib

/-!
Shallow embedding of the subtitle synchronization and rendering engine of
`social_content_engine/video_creation/video_overlay.py`.

Python floats are modelled as rationals (`ℚ`), Python string helpers
(`str.split()`, `str.strip()`, `" ".join`, `str.lower()`) are modelled by
executable character-level functions below, and a subtitle segment — a Python
tuple `(start, end, text)` — is modelled as `ℚ × ℚ × String`.
-/

namespace SCE

/-- A subtitle segment `(start, end, text)`, as the Python tuples used in
`video_overlay.py`. The same triple shape models an ASR word token
`{start, end, text}`. -/
abbrev Seg : Type := ℚ × ℚ × String

/-- Model of Python `str.split()` (no separator): accumulate maximal runs of
non-whitespace characters, dropping all whitespace; `acc` is the word being
accumulated. -/
def tokensAux : List Char → List Char → List String
  | [], acc => if acc = [] then [] else [String.mk acc]
  | c :: cs, acc =>
    if c.isWhitespace then
      (if acc = [] then [] else [String.mk acc]) ++ tokensAux cs []
    else
      tokensAux cs (acc ++ [c])

/-- Python `text.split()`: whitespace-separated tokens, empties dropped. -/
def py_split (s : String) : List String :=
  tokensAux s.data []

/-- A word as produced by Python `str.split()`: non-empty and free of
whitespace characters. -/
def good_word (w : String) : Prop :=
  w.data ≠ [] ∧ ∀ c ∈ w.data, c.isWhitespace = false

/-- Python `text.strip()`: drop leading and trailing whitespace. -/
def py_strip (s : String) : String :=
  String.mk (((s.data.dropWhile Char.isWhitespace).reverse.dropWhile Char.isWhitespace).reverse)

/-- Python `" ".join(ws)`. -/
def join_space : List String → String
  | [] => ""
  | [w] => w
  | w :: ws => w ++ " " ++ join_space ws

/-- Python `s.lower()` (ASCII case folding suffices for the mode strings). -/
def py_lower (s : String) : String :=
  String.mk (s.data.map Char.toLower)

/-!  ## `_build_subtitles_by_wordcount` (video_overlay.py lines 112-137)  -/

/-- The `while i < len(words)` loop of `_build_subtitles_by_wordcount`.
`rest` is `words[i:]`; the loop stops when the chunk `words[i:i+wpl]` is
empty (`rest` exhausted, or `wpl = 0`).  The loop consumes at least one word
per iteration, so any `fuel ≥ rest.length` makes the recursion total without
changing its value. -/
def wordcount_loop (t D : ℚ) (wpl : ℕ) : ℕ → ℕ → List String → List Seg
  | 0, _, _ => []
  | fuel + 1, i, rest =>
    if rest.take wpl = [] then []
    else
      ((i : ℚ) * t, min D (((i : ℚ) + ((rest.take wpl).length : ℚ)) * t),
        join_space (rest.take wpl)) ::
      wordcount_loop t D wpl fuel (i + wpl) (rest.drop wpl)

/-- `if subs and subs[-1][1] < duration: subs[-1] = (s, duration, t)`. -/
def fix_last (duration : ℚ) : List Seg → List Seg
  | [] => []
  | [(s, e, txt)] => if e < duration then [(s, duration, txt)] else [(s, e, txt)]
  | x :: xs => x :: fix_last duration xs

/-- `_build_subtitles_by_wordcount`: `duration` is the probed audio duration
(the Python code turns a probe failure or a `None` duration into `0.0`). -/
def build_subtitles_by_wordcount (duration : ℚ) (text : String) (words_per_line : ℕ) :
    List Seg :=
  if duration ≤ 0 then []
  else
    let words := py_split text
    if words = [] then []
    else
      let t := duration / (words.length : ℚ)
      fix_last duration (wordcount_loop t duration words_per_line words.length 0 words)

/-!  ## `_build_subtitles_by_asr` (video_overlay.py lines 139-180)  -/

/-- The word-token preprocessing of `_build_subtitles_by_asr`: each ASR word
`(start, end, text)` is kept with its stripped token when that token is
non-empty. -/
def asr_words (raw : List Seg) : List Seg :=
  raw.filterMap fun w =>
    let token := py_strip w.2.2
    if token = "" then none else some (w.1, w.2.1, token)

/-- `cur[-1]["end"]` for the current accumulated line (`0` is never used: the
code only reads it when `cur` is non-empty). -/
def last_word_end (cur : List Seg) : ℚ :=
  ((cur.getLast?).map fun w => w.2.1).getD 0

/-- The line-grouping loop of `_build_subtitles_by_asr`: accumulate words into
`cur` while the stripped joined text stays within `maxChars`; `cs` is the
Python `cur_start` (`none` = Python `None`). -/
def group_asr_lines (maxChars : ℕ) : List Seg → List Seg → Option ℚ → List Seg
  | [], cur, cs =>
    if cur = [] then []
    else [(cs.getD 0, last_word_end cur, join_space (cur.map fun w => w.2.2))]
  | w :: ws, cur, cs =>
    let cs' := if cs = none then some w.1 else cs
    let trial := py_strip (join_space ((cur ++ [w]).map fun x => x.2.2))
    if trial.length ≤ maxChars then
      group_asr_lines maxChars ws (cur ++ [w]) cs'
    else
      (if cur = [] then []
       else [(cs'.getD 0, last_word_end cur, join_space (cur.map fun x => x.2.2))]) ++
      group_asr_lines maxChars ws [w] (some w.1)

/-- The monotonicity repair loop of `_build_subtitles_by_asr`.  Note the Python
tuple assignment evaluates `max(s + 0.01, e)` with the original `s`, before `s`
is clamped to `last_end`. -/
def repair_lines : ℚ → List Seg → List Seg
  | _, [] => []
  | lastEnd, (s, e, txt) :: rest =>
    let s1 := max 0 s
    let e1 := max (s + 1/100) e
    let s2 := if s1 < lastEnd then lastEnd else s1
    (s2, e1, py_strip txt) :: repair_lines e1 rest

/-- `_build_subtitles_by_asr`, given the word-level `(start, end, text)`
stream supplied by the ASR backend (the backend itself is external). -/
def build_subtitles_by_asr (maxChars : ℕ) (raw : List Seg) : List Seg :=
  repair_lines 0 (group_asr_lines maxChars (asr_words raw) [] none)

/-- The `try: from faster_whisper import ... except ImportError: return []`
guard: if the ASR backend is unavailable the builder returns the empty
sequence. -/
def build_subtitles_by_asr_checked (available : Bool) (maxChars : ℕ) (raw : List Seg) :
    List Seg :=
  if available then build_subtitles_by_asr maxChars raw else []

/-!  ## Mode dispatch (`create_final_video` lines 73-84, `main.py` lines 78-88)  -/

/-- The subtitle-mode dispatch at the start of `create_final_video`: existing
segments are passed through; otherwise the selected strategy builds them
(`max_chars_per_line=38` is the hard-coded ASR call there); any other mode
(in particular `manual` with no segments) leaves the list empty. -/
def choose_subtitles (mode : String) (existing : List Seg) (scriptText : String)
    (audioDuration : ℚ) (wordsPerLine : ℕ) (asrAvailable : Bool) (asrRaw : List Seg) :
    List Seg :=
  if existing ≠ [] then existing
  else if mode = "wordcount" then
    build_subtitles_by_wordcount audioDuration scriptText wordsPerLine
  else if mode = "asr" then build_subtitles_by_asr_checked asrAvailable 38 asrRaw
  else existing

/-- The mode normalization in `SocialContentEngine.process_document`:
`mode = (subtitle_mode or "wordcount").lower()`, then manual mode with no
externally supplied segments falls back to `wordcount`. -/
def effective_mode (subtitleMode : String) (existing : List Seg) : String :=
  let mode := py_lower (if subtitleMode = "" then "wordcount" else subtitleMode)
  if mode = "manual" ∧ existing = [] then "wordcount" else mode

/-- The subtitle list that `process_document` hands to the renderer: the
effective mode applied through `create_final_video`'s dispatch. -/
def process_document_subtitles (subtitleMode : String) (existing : List Seg)
    (scriptText : String) (audioDuration : ℚ) (wordsPerLine : ℕ)
    (asrAvailable : Bool) (asrRaw : List Seg) : List Seg :=
  choose_subtitles (effective_mode subtitleMode existing) existing scriptText
    audioDuration wordsPerLine asrAvailable asrRaw

/-!  ## Greedy word-wrap of `_create_text_image` (video_overlay.py lines 254-266)

The pixel measurement `_safe_textlength(draw, trial, font)` depends on the
font and drawing backend, so it is a parameter `measure : String → ℚ` of the
embedding; the wrap loop itself is the code's.  -/

/-- The wrap loop: `line` is the current accumulated word list; a trial line
that fits extends it, otherwise the current line is emitted and the word
starts a new line. -/
def wrap_loop (measure : String → ℚ) (maxLineWidth : ℚ) :
    List String → List String → List String
  | [], line => if line = [] then [] else [join_space line]
  | w :: ws, line =>
    let trial := join_space (line ++ [w])
    if measure trial ≤ maxLineWidth then wrap_loop measure maxLineWidth ws (line ++ [w])
    else
      (if line = [] then [] else [join_space line]) ++ wrap_loop measure maxLineWidth ws [w]

/-- The text wrapping of `_create_text_image`: `words = text.split()` followed
by the greedy wrap loop. -/
def wrap_text (measure : String → ℚ) (maxLineWidth : ℚ) (text : String) : List String :=
  wrap_loop measure maxLineWidth (py_split text) []

/-!  ## `_generate_dynamic_subtitles` (video_overlay.py lines 188-206)

For each segment in order the loop skips it when `end ≤ start`, and otherwise
writes one banner image and opens one overlay clip with
`set_duration(end - start).set_start(start)`.  An overlay clip is modelled as
`(start, duration, banner text)`. -/

def generate_dynamic_subtitles : List Seg → List (ℚ × ℚ × String)
  | [] => []
  | (s, e, txt) :: rest =>
    if e ≤ s then generate_dynamic_subtitles rest
    else (s, e - s, txt) :: generate_dynamic_subtitles rest

/-!  ## `create_final_video` resource model (video_overlay.py lines 68-109)

The media operations are external; the model records which handles and
temporary files exist at each point, and lets an environment choose a failure
point.  Mirrors the code's shape: the base video is opened first, the audio
clip is opened *before* the `try`, `_ensure_tmpdir` plus banner rendering and
clip creation happen inside the `try`, and the `finally` block closes the
clips bound to `subtitle_clips`/`final_video`/`audio_clip`/`video_clip` and
removes the temporary directory unless `keep_sub_images` is set.  -/

/-- The failure the environment injects, as the distinct raise sites of the
render sequence (`none` of them is caught inside `create_final_video`). -/
inductive RenderErr where
  | openVideoErr : RenderErr
  | openAudioErr : RenderErr
  | bannerErr : RenderErr
  | writeErr : RenderErr
deriving DecidableEq

/-- Which external operations fail during one `create_final_video` call.
`bannerFailAt = some k` means `_create_text_image` raises while processing the
`k`-th kept segment. -/
structure RenderEnv where
  openVideoFails : Bool
  openAudioFails : Bool
  bannerFailAt : Option ℕ
  writeFails : Bool
  keepSubImages : Bool
deriving DecidableEq

/-- Post-call resource state: which clip handles are still open, how many
banner image files remain, and whether the scoped temporary directory still
exists. -/
structure RenderState where
  videoOpen : Bool
  audioOpen : Bool
  overlaysOpen : ℕ
  tmpImages : ℕ
  tmpDirLive : Bool
deriving DecidableEq

/-- The tail of the render after overlay generation succeeded (compositing,
encoding, then the `finally` block): on success and on a write/composite
failure alike, every handle bound in `create_final_video` is closed and the
temporary directory is removed unless retention was requested. -/
def after_generate (env : RenderEnv) (numClips : ℕ) : Except RenderErr Unit × RenderState :=
  let st : RenderState :=
    { videoOpen := false, audioOpen := false, overlaysOpen := 0
      tmpImages := if env.keepSubImages then numClips else 0
      tmpDirLive := env.keepSubImages }
  if env.writeFails then (.error .writeErr, st) else (.ok (), st)

/-- One `create_final_video` call on an already-chosen subtitle list. -/
def create_final_video (env : RenderEnv) (subs : List Seg) :
    Except RenderErr Unit × RenderState :=
  if env.openVideoFails then
    (.error .openVideoErr,
      { videoOpen := false, audioOpen := false, overlaysOpen := 0
        tmpImages := 0, tmpDirLive := false })
  else if env.openAudioFails then
    -- `mp.AudioFileClip(...)` raises before the `try`, so the `finally` block
    -- never runs and the base video handle stays open.
    (.error .openAudioErr,
      { videoOpen := true, audioOpen := false, overlaysOpen := 0
        tmpImages := 0, tmpDirLive := false })
  else
    let kept := generate_dynamic_subtitles subs
    match env.bannerFailAt with
    | some k =>
      if k < kept.length then
        -- `_create_text_image` raises inside the `try` with `k` images written
        -- and `k` clips opened; those clips were never bound to
        -- `subtitle_clips`, so the `finally` block cannot close them.
        (.error .bannerErr,
          { videoOpen := false, audioOpen := false, overlaysOpen := k
            tmpImages := if env.keepSubImages then k else 0
            tmpDirLive := env.keepSubImages })
      else after_generate env kept.length
    | none => after_generate env kept.length

section Checks

attribute [local semireducible] Rat.mul Rat.inv Rat.add Rat.sub

example :
    build_subtitles_by_wordcount 10 "one two three four five six seven eight nine ten" 5 =
      [(0, 5, "one two three four five"), (5, 10, "six seven eight nine ten")] := by
  decide

example : build_subtitles_by_wordcount 7 "alpha beta gamma" 2 =
    [(0, 14/3, "alpha beta"), (14/3, 7, "gamma")] := by
  decide

example : build_subtitles_by_asr 20 [(0, 3/10, "hi"), (3/10, 3/5, "there")] =
    [(0, 3/5, "hi there")] := by
  decide

example : build_subtitles_by_asr 1 [(0, 10, "a"), (0, 1, "b"), (5, 6, "c")] =
    [(0, 10, "a"), (10, 1, "b"), (5, 6, "c")] := by
  decide

example : wrap_text (fun s => (s.length : ℚ)) 5 "aaaaaaa bb cc" = ["aaaaaaa", "bb cc"] := by
  decide

example : generate_dynamic_subtitles [(0, 2, "x"), (3, 3, "y"), (5, 4, "z"), (6, 8, "w")] =
    [(0, 2, "x"), (6, 2, "w")] := by
  decide

example :
    create_final_video
      { openVideoFails := false, openAudioFails := true, bannerFailAt := none
        writeFails := false, keepSubImages := false } [] =
    (.error .openAudioErr,
      { videoOpen := true, audioOpen := false, overlaysOpen := 0
        tmpImages := 0, tmpDirLive := false }) := rfl

example :
    process_document_subtitles "manual" [] "hi there" 4 5 false [] =
      [(0, 4, "hi there")] := by
  decide

end Checks

section ClaimTheorems

attribute [local semireducible] Rat.mul Rat.inv Rat.add Rat.sub

/-- C3: the wordcount strategy returns an empty segment sequence (not an
error) whenever the audio duration is ≤ 0 or the narration text contains no
words after whitespace splitting. -/
theorem C3_wordcount_degenerate (duration : ℚ) (text : String) (wpl : ℕ)
    (h : duration ≤ 0 ∨ py_split text = []) :
    build_subtitles_by_wordcount duration text wpl = [] := by
  rcases h with h | h <;> simp [build_subtitles_by_wordcount, h]

/-- Witness for C3 at duration `0` and at whitespace-only narration text. -/
theorem C3_wordcount_degenerate_witness :
    build_subtitles_by_wordcount 0 "hello world" 5 = [] ∧
    build_subtitles_by_wordcount 10 "   " 5 = [] := by
  refine ⟨C3_wordcount_degenerate 0 "hello world" 5 (Or.inl (by norm_num)),
    C3_wordcount_degenerate 10 "   " 5 (Or.inr (by decide))⟩

/-- C4: during overlay assembly, every segment with `end ≤ start` is silently
excluded (no banner image, no overlay clip), and exactly the segments with
`end > start` each yield one overlay clip starting at `segment.start` with
duration `segment.end - segment.start`, in segment order. -/
theorem C4_drop_rule (subs : List Seg) :
    generate_dynamic_subtitles subs =
      (subs.filter fun s => decide (s.1 < s.2.1)).map fun s => (s.1, s.2.1 - s.1, s.2.2) := by
  induction subs with
  | nil => rfl
  | cons x rest ih =>
    obtain ⟨s, e, txt⟩ := x
    by_cases h : e ≤ s
    · simp [generate_dynamic_subtitles, h, not_lt.mpr h, ih]
    · simp [generate_dynamic_subtitles, h, not_le.mp h, ih]

/-- C5: with the manual strategy selected and no segments supplied, the
engine falls back to the wordcount strategy with the configured
words-per-line value. -/
theorem C5_manual_fallback (scriptText : String) (audioDuration : ℚ)
    (wordsPerLine : ℕ) (asrAvailable : Bool) (asrRaw : List Seg) :
    process_document_subtitles "manual" [] scriptText audioDuration wordsPerLine
        asrAvailable asrRaw =
      build_subtitles_by_wordcount audioDuration scriptText wordsPerLine := by
  rfl

/-- C6: an unavailable ASR backend makes the asr builder return the empty
sequence instead of raising, and the subsequent render (whose own media
operations succeed) completes with zero overlay clips — a captionless
video. -/
theorem C6_asr_unavailable (maxChars : ℕ) (raw : List Seg) (env : RenderEnv)
    (hv : env.openVideoFails = false) (ha : env.openAudioFails = false)
    (hw : env.writeFails = false) :
    build_subtitles_by_asr_checked false maxChars raw = [] ∧
    (create_final_video env (build_subtitles_by_asr_checked false maxChars raw)).1 =
      .ok () ∧
    generate_dynamic_subtitles (build_subtitles_by_asr_checked false maxChars raw) = [] := by
  refine ⟨rfl, ?_, rfl⟩
  cases hb : env.bannerFailAt <;>
    simp [create_final_video, after_generate, hv, ha, hw, hb,
      build_subtitles_by_asr_checked, generate_dynamic_subtitles]

/-- Witness for C6 at a concrete failure-free environment. -/
theorem C6_asr_unavailable_witness :
    build_subtitles_by_asr_checked false 38 [(0, 1, "hi")] = [] ∧
    (create_final_video
        { openVideoFails := false, openAudioFails := false, bannerFailAt := none
          writeFails := false, keepSubImages := false }
        (build_subtitles_by_asr_checked false 38 [(0, 1, "hi")])).1 = .ok () ∧
    generate_dynamic_subtitles (build_subtitles_by_asr_checked false 38 [(0, 1, "hi")]) =
      [] :=
  C6_asr_unavailable 38 [(0, 1, "hi")]
    { openVideoFails := false, openAudioFails := false, bannerFailAt := none
      writeFails := false, keepSubImages := false } rfl rfl rfl

/-- C8: after any render invocation — normal or failing at any modeled point —
no temporary banner images remain and the scoped temporary directory is gone,
unless `keep_sub_images` was set. -/
theorem C8_tmp_cleanup (env : RenderEnv) (subs : List Seg)
    (h : env.keepSubImages = false) :
    (create_final_video env subs).2.tmpImages = 0 ∧
    (create_final_video env subs).2.tmpDirLive = false := by
  cases hv : env.openVideoFails <;> cases ha : env.openAudioFails <;>
    cases hb : env.bannerFailAt <;> cases hw : env.writeFails <;>
      simp [create_final_video, after_generate, hv, ha, hb, hw, h] <;>
        split <;> simp

/-- Witness for C8: a failing encode with retention off leaves no images. -/
theorem C8_tmp_cleanup_witness :
    (create_final_video
        { openVideoFails := false, openAudioFails := false, bannerFailAt := none
          writeFails := true, keepSubImages := false } [(0, 2, "x")]).2.tmpImages = 0 ∧
    (create_final_video
        { openVideoFails := false, openAudioFails := false, bannerFailAt := none
          writeFails := true, keepSubImages := false } [(0, 2, "x")]).2.tmpDirLive = false :=
  C8_tmp_cleanup
    { openVideoFails := false, openAudioFails := false, bannerFailAt := none
      writeFails := true, keepSubImages := false } [(0, 2, "x")] rfl

/-- C9 counterexample: when opening the audio clip fails, the exception
propagates while the already-opened base video handle is left open — resource
release IS skipped on that failure path (the audio clip is opened before the
`try`/`finally`). -/
theorem C9_counterexample :
    (create_final_video
        { openVideoFails := false, openAudioFails := true, bannerFailAt := none
          writeFails := false, keepSubImages := false } [(0, 2, "x")]).1 =
      .error .openAudioErr ∧
    (create_final_video
        { openVideoFails := false, openAudioFails := true, bannerFailAt := none
          writeFails := false, keepSubImages := false } [(0, 2, "x")]).2.videoOpen = true :=
  ⟨rfl, rfl⟩

/-- C9 (amended): failures propagate to the caller as the underlying
exception; when opening the media succeeds and banner rendering does not
fail, the `finally` block releases the base video, audio, and every overlay
clip handle on both the success path and an encode/composite failure, and a
failing encode surfaces its error. -/
theorem C9_release_on_inner_failures (env : RenderEnv) (subs : List Seg)
    (hv : env.openVideoFails = false) (ha : env.openAudioFails = false)
    (hb : env.bannerFailAt = none) :
    ((create_final_video env subs).2.videoOpen = false ∧
     (create_final_video env subs).2.audioOpen = false ∧
     (create_final_video env subs).2.overlaysOpen = 0) ∧
    (env.writeFails = true → (create_final_video env subs).1 = .error .writeErr) := by
  cases hw : env.writeFails <;>
    simp [create_final_video, after_generate, hv, ha, hb, hw]

/-- Witness for C9 (amended) at a concrete failing encode. -/
theorem C9_release_on_inner_failures_witness :
    (((create_final_video
        { openVideoFails := false, openAudioFails := false, bannerFailAt := none
          writeFails := true, keepSubImages := false } [(0, 2, "x")]).2.videoOpen = false ∧
      (create_final_video
        { openVideoFails := false, openAudioFails := false, bannerFailAt := none
          writeFails := true, keepSubImages := false } [(0, 2, "x")]).2.audioOpen = false ∧
      (create_final_video
        { openVideoFails := false, openAudioFails := false, bannerFailAt := none
          writeFails := true, keepSubImages := false } [(0, 2, "x")]).2.overlaysOpen = 0) ∧
     (({ openVideoFails := false, openAudioFails := false, bannerFailAt := none
         writeFails := true, keepSubImages := false } : RenderEnv).writeFails = true →
       (create_final_video
         { openVideoFails := false, openAudioFails := false, bannerFailAt := none
           writeFails := true, keepSubImages := false } [(0, 2, "x")]).1 =
         .error .writeErr)) :=
  C9_release_on_inner_failures
    { openVideoFails := false, openAudioFails := false, bannerFailAt := none
      writeFails := true, keepSubImages := false } [(0, 2, "x")] rfl rfl rfl

/-- Invariant of the wrap loop: the accumulated line is empty, fits the
budget, or is a lone word; every emitted line then fits or is a single input
word. -/
theorem wrap_loop_fit (measure : String → ℚ) (budget : ℚ) (S : List String) :
    ∀ ws line, (∀ w ∈ ws, w ∈ S) → (∀ w ∈ line, w ∈ S) →
      (line = [] ∨ measure (join_space line) ≤ budget ∨ ∃ w, line = [w]) →
      ∀ ln ∈ wrap_loop measure budget ws line, measure ln ≤ budget ∨ ln ∈ S := by
  intro ws
  induction ws with
  | nil =>
    intro line _ hlineS hinv ln hln
    by_cases hl : line = []
    · simp [wrap_loop, hl] at hln
    · simp only [wrap_loop, if_neg hl, List.mem_singleton] at hln
      subst hln
      rcases hinv with h | h | ⟨w, rfl⟩
      · exact absurd h hl
      · exact Or.inl h
      · exact Or.inr (hlineS w (by simp))
  | cons w ws ih =>
    intro line hwsS hlineS hinv ln hln
    have hwS : w ∈ S := hwsS w (by simp)
    have hwsS' : ∀ x ∈ ws, x ∈ S := fun x hx => hwsS x (by simp [hx])
    simp only [wrap_loop] at hln
    by_cases hfit : measure (join_space (line ++ [w])) ≤ budget
    · rw [if_pos hfit] at hln
      refine ih (line ++ [w]) hwsS' ?_ (Or.inr (Or.inl hfit)) ln hln
      intro x hx
      rcases List.mem_append.mp hx with h | h
      · exact hlineS x h
      · simp at h; subst h; exact hwS
    · rw [if_neg hfit] at hln
      rcases List.mem_append.mp hln with hemit | hrec
      · by_cases hl : line = []
        · simp [hl] at hemit
        · simp only [if_neg hl, List.mem_singleton] at hemit
          subst hemit
          rcases hinv with h | h | ⟨v, rfl⟩
          · exact absurd h hl
          · exact Or.inl h
          · exact Or.inr (hlineS v (by simp))
      · refine ih [w] hwsS' ?_ (Or.inr (Or.inr ⟨w, rfl⟩)) ln hrec
        intro x hx; simp at hx; subst hx; exact hwS

/-- C7: every line produced by the greedy word-wrap either measures within
the pixel budget or is a single word of the input text (an overlong word is
emitted alone, never split). -/
theorem C7_wrap_fitting (measure : String → ℚ) (budget : ℚ) (text : String) :
    ∀ ln ∈ wrap_text measure budget text,
      measure ln ≤ budget ∨ ln ∈ py_split text := by
  intro ln hln
  exact wrap_loop_fit measure budget (py_split text) (py_split text) []
    (fun w hw => hw) (by simp) (Or.inl rfl) ln hln

/-- Witness for C7: with width = character count and budget 5, the overlong
word is emitted alone as a line. -/
theorem C7_wrap_fitting_witness :
    (fun s : String => (s.length : ℚ)) "aaaaaaa" ≤ 5 ∨
      "aaaaaaa" ∈ py_split "aaaaaaa bb" :=
  C7_wrap_fitting (fun s : String => (s.length : ℚ)) 5 "aaaaaaa bb" "aaaaaaa" (by decide)

/-- `wordcount_loop` on an empty word list yields no segments. -/
theorem wordcount_loop_nil (t D : ℚ) (wpl : ℕ) :
    ∀ fuel i, wordcount_loop t D wpl fuel i [] = [] := by
  intro fuel i; cases fuel <;> simp [wordcount_loop]

/-- Invariants of the wordcount loop: when `0 < t` and the remaining words
fill exactly the time up to at most `D`, every produced segment has
`0 ≤ start < end ≤ D` and starts at or after `i·t`, and consecutive segments
are ordered and non-overlapping. -/
theorem wordcount_loop_inv (t D : ℚ) (wpl : ℕ) (ht : 0 < t) :
    ∀ fuel (i : ℕ) rest, ((i : ℚ) + (rest.length : ℚ)) * t ≤ D →
      (∀ s ∈ wordcount_loop t D wpl fuel i rest,
        (0 ≤ s.1 ∧ s.1 < s.2.1 ∧ s.2.1 ≤ D) ∧ (i : ℚ) * t ≤ s.1) ∧
      List.Chain' (fun a b => a.1 ≤ b.1 ∧ a.2.1 ≤ b.1)
        (wordcount_loop t D wpl fuel i rest) := by
  intro fuel
  induction fuel with
  | zero => intro i rest _; simp [wordcount_loop]
  | succ fuel ih =>
    intro i rest hle
    by_cases hstop : rest.take wpl = []
    · simp [wordcount_loop, hstop]
    · have hrest : rest ≠ [] := by
        intro h; rw [h] at hstop; simp at hstop
      have hrlen : 0 < rest.length := List.length_pos.mpr hrest
      have hclen : 0 < (rest.take wpl).length := List.length_pos.mpr hstop
      have hcwpl : (rest.take wpl).length ≤ wpl := by
        rw [List.length_take]; exact min_le_left _ _
      have hcrest : (rest.take wpl).length ≤ rest.length := by
        rw [List.length_take]; exact min_le_right _ _
      have hiD : (i : ℚ) * t < D := by
        refine lt_of_lt_of_le ?_ hle
        have : (i : ℚ) < (i : ℚ) + rest.length := by
          have : (0 : ℚ) < rest.length := by exact_mod_cast hrlen
          linarith
        exact mul_lt_mul_of_pos_right this ht
      have hstartlt : (i : ℚ) * t < ((i : ℚ) + ((rest.take wpl).length : ℚ)) * t := by
        have : (i : ℚ) < (i : ℚ) + ((rest.take wpl).length : ℚ) := by
          have : (0 : ℚ) < ((rest.take wpl).length : ℚ) := by exact_mod_cast hclen
          linarith
        exact mul_lt_mul_of_pos_right this ht
      have hheadstep : ((i : ℚ) + ((rest.take wpl).length : ℚ)) * t ≤
          ((i + wpl : ℕ) : ℚ) * t := by
        refine mul_le_mul_of_nonneg_right ?_ ht.le
        push_cast
        have : ((rest.take wpl).length : ℚ) ≤ (wpl : ℚ) := by exact_mod_cast hcwpl
        linarith
      have hhead : (0 ≤ (i : ℚ) * t ∧
          (i : ℚ) * t < min D (((i : ℚ) + ((rest.take wpl).length : ℚ)) * t) ∧
          min D (((i : ℚ) + ((rest.take wpl).length : ℚ)) * t) ≤ D) ∧
          (i : ℚ) * t ≤ (i : ℚ) * t :=
        ⟨⟨mul_nonneg (Nat.cast_nonneg i) ht.le, lt_min hiD hstartlt, min_le_left _ _⟩,
          le_refl _⟩
      by_cases hdrop : rest.drop wpl = []
      · have : wordcount_loop t D wpl (fuel + 1) i rest =
            [((i : ℚ) * t, min D (((i : ℚ) + ((rest.take wpl).length : ℚ)) * t),
              join_space (rest.take wpl))] := by
          rw [wordcount_loop, if_neg hstop, hdrop, wordcount_loop_nil]
        rw [this]
        constructor
        · intro s hs
          simp only [List.mem_singleton] at hs
          subst hs
          exact hhead
        · simp
      · have hwlt : wpl < rest.length := by
          by_contra hcon
          exact hdrop (List.drop_eq_nil_of_le (not_lt.mp hcon))
        have hkey : ((i + wpl : ℕ) : ℚ) + ((rest.drop wpl).length : ℚ) =
            (i : ℚ) + (rest.length : ℚ) := by
          rw [List.length_drop]
          push_cast [Nat.cast_sub hwlt.le]
          ring
        have hih := ih (i + wpl) (rest.drop wpl) (by rw [hkey]; exact hle)
        have hstep : (i : ℚ) * t ≤ ((i + wpl : ℕ) : ℚ) * t := by
          refine mul_le_mul_of_nonneg_right ?_ ht.le
          push_cast; linarith [Nat.cast_nonneg (α := ℚ) wpl]
        rw [wordcount_loop, if_neg hstop]
        constructor
        · intro s hs
          rcases List.mem_cons.mp hs with rfl | hs
          · exact hhead
          · obtain ⟨hprops, hge⟩ := hih.1 s hs
            exact ⟨hprops, le_trans hstep hge⟩
        · refine List.chain'_cons'.mpr ⟨?_, hih.2⟩
          intro y hy
          have hmem := hih.1 y (List.mem_of_mem_head? hy)
          refine ⟨le_trans hstep hmem.2, ?_⟩
          exact le_trans (le_trans (min_le_right _ _) hheadstep) hmem.2

/-- `fix_last` preserves `0 ≤ start < end` when all ends were at most the
target duration. -/
theorem fix_last_mem (D : ℚ) :
    ∀ l, (∀ s ∈ l, 0 ≤ s.1 ∧ s.1 < s.2.1 ∧ s.2.1 ≤ D) →
      ∀ s ∈ fix_last D l, 0 ≤ s.1 ∧ s.1 < s.2.1 := by
  intro l
  induction l with
  | nil => simp [fix_last]
  | cons x xs ih =>
    intro hmem s hs
    cases xs with
    | nil =>
      obtain ⟨a, e, txt⟩ := x
      obtain ⟨h0, hlt, hle⟩ := hmem (a, e, txt) (by simp)
      by_cases he : e < D
      · simp only [fix_last, if_pos he, List.mem_singleton] at hs
        subst hs
        exact ⟨h0, lt_of_lt_of_le hlt hle⟩
      · simp only [fix_last, if_neg he, List.mem_singleton] at hs
        subst hs
        exact ⟨h0, hlt⟩
    | cons y ys =>
      have heq : fix_last D (x :: y :: ys) = x :: fix_last D (y :: ys) := rfl
      rw [heq] at hs
      rcases List.mem_cons.mp hs with h1 | h1
      · have hx := hmem x (List.mem_cons_self x (y :: ys))
        rw [h1]
        exact ⟨hx.1, hx.2.1⟩
      · exact ih (fun z hz => hmem z (List.mem_cons_of_mem x hz)) s h1

/-- The head of `fix_last` keeps the head's start time. -/
theorem fix_last_head_start (D : ℚ) (x : Seg) (l : List Seg) :
    ∀ y ∈ (fix_last D (x :: l)).head?, y.1 = x.1 := by
  cases l with
  | nil =>
    obtain ⟨a, e, txt⟩ := x
    by_cases he : e < D <;> simp [fix_last, he]
  | cons z zs => simp [fix_last]

/-- `fix_last` preserves the ordering chain (it only ever raises the final
end time, which no chain constraint reads). -/
theorem fix_last_chain (D : ℚ) :
    ∀ l, List.Chain' (fun a b : Seg => a.1 ≤ b.1 ∧ a.2.1 ≤ b.1) l →
      List.Chain' (fun a b : Seg => a.1 ≤ b.1 ∧ a.2.1 ≤ b.1) (fix_last D l) := by
  intro l
  induction l with
  | nil => simp [fix_last]
  | cons x xs ih =>
    intro hch
    cases xs with
    | nil =>
      obtain ⟨a, e, txt⟩ := x
      by_cases he : e < D <;> simp [fix_last, he]
    | cons y ys =>
      have heq : fix_last D (x :: y :: ys) = x :: fix_last D (y :: ys) := rfl
      rw [heq]
      obtain ⟨hxy, htail⟩ := List.chain'_cons.mp hch
      refine List.chain'_cons'.mpr ⟨?_, ih htail⟩
      intro z hz
      have hz1 : z.1 = y.1 := fix_last_head_start D y ys z hz
      exact ⟨hz1 ▸ hxy.1, hz1 ▸ hxy.2⟩

/-- Every segment of the repair pass starts at or after time `0`. -/
theorem repair_lines_mem :
    ∀ l lastEnd, ∀ s ∈ repair_lines lastEnd l, 0 ≤ s.1 := by
  intro l
  induction l with
  | nil => simp [repair_lines]
  | cons x xs ih =>
    intro lastEnd s hs
    obtain ⟨a, e, txt⟩ := x
    simp only [repair_lines, List.mem_cons] at hs
    rcases hs with rfl | hs
    · dsimp only
      split
      · next h => exact le_of_lt (lt_of_le_of_lt (le_max_left 0 a) h)
      · exact le_max_left 0 a
    · exact ih _ s hs

/-- The first repaired segment starts at or after the incoming `last_end`. -/
theorem repair_lines_head_start :
    ∀ l lastEnd, ∀ y ∈ (repair_lines lastEnd l).head?, lastEnd ≤ y.1 := by
  intro l lastEnd y hy
  cases l with
  | nil => simp [repair_lines] at hy
  | cons x xs =>
    obtain ⟨a, e, txt⟩ := x
    simp only [repair_lines, List.head?_cons, Option.mem_def, Option.some_inj] at hy
    subst hy
    dsimp only
    split
    · exact le_refl _
    · next h => exact not_lt.mp h

/-- The repair pass always produces non-overlapping segments:
`segments[i].end ≤ segments[i+1].start`. -/
theorem repair_lines_chain :
    ∀ l lastEnd, List.Chain' (fun a b : Seg => a.2.1 ≤ b.1) (repair_lines lastEnd l) := by
  intro l
  induction l with
  | nil => intro lastEnd; simp [repair_lines]
  | cons x xs ih =>
    intro lastEnd
    obtain ⟨a, e, txt⟩ := x
    simp only [repair_lines]
    refine List.chain'_cons'.mpr ⟨?_, ih _⟩
    intro y hy
    exact repair_lines_head_start xs _ y hy

/-- C1 counterexample: a concrete ASR word stream for which the returned
sequence violates `start < end` (second segment is `(10, 1)`) and has
decreasing starts (`10` followed by `5`): the monotonicity repair clamps a
start past its own end and never adjusts ends. -/
theorem C1_counterexample :
    build_subtitles_by_asr 1 [(0, 10, "a"), (0, 1, "b"), (5, 6, "c")] =
      [(0, 10, "a"), (10, 1, "b"), (5, 6, "c")] ∧
    ¬ (∀ s ∈ build_subtitles_by_asr 1 [(0, 10, "a"), (0, 1, "b"), (5, 6, "c")],
        s.1 < s.2.1) ∧
    ¬ List.Chain' (fun a b : Seg => a.1 ≤ b.1)
        (build_subtitles_by_asr 1 [(0, 10, "a"), (0, 1, "b"), (5, 6, "c")]) := by
  have h : build_subtitles_by_asr 1 [(0, 10, "a"), (0, 1, "b"), (5, 6, "c")] =
      [(0, 10, "a"), (10, 1, "b"), (5, 6, "c")] := by decide
  refine ⟨h, by decide, ?_⟩
  rw [h]
  intro hch
  obtain ⟨h2, -⟩ := List.chain'_cons.mp ((List.chain'_cons.mp hch).2)
  norm_num at h2

/-- C1 (amended): every wordcount result satisfies the full segment
invariants (`0 ≤ start < end`, non-decreasing starts, and
`segments[i].end ≤ segments[i+1].start`); every asr result satisfies
`0 ≤ start` and `segments[i].end ≤ segments[i+1].start`, but a repaired asr
segment may have `end ≤ start` (and starts may decrease) when the
monotonicity clamp raises a start past its end. -/
theorem C1_builder_ordering (D : ℚ) (text : String) (wpl maxChars : ℕ)
    (raw : List Seg) :
    ((∀ s ∈ build_subtitles_by_wordcount D text wpl, 0 ≤ s.1 ∧ s.1 < s.2.1) ∧
      List.Chain' (fun a b : Seg => a.1 ≤ b.1 ∧ a.2.1 ≤ b.1)
        (build_subtitles_by_wordcount D text wpl)) ∧
    ((∀ s ∈ build_subtitles_by_asr maxChars raw, 0 ≤ s.1) ∧
      List.Chain' (fun a b : Seg => a.2.1 ≤ b.1)
        (build_subtitles_by_asr maxChars raw)) := by
  constructor
  · by_cases hD : D ≤ 0
    · simp [build_subtitles_by_wordcount, hD]
    · by_cases hw : py_split text = []
      · simp [build_subtitles_by_wordcount, hD, hw]
      · have hD' : 0 < D := not_le.mp hD
        have hlen : 0 < ((py_split text).length : ℚ) := by
          exact_mod_cast List.length_pos.mpr hw
        have ht : 0 < D / ((py_split text).length : ℚ) := div_pos hD' hlen
        have hhyp : (((0 : ℕ) : ℚ) + ((py_split text).length : ℚ)) *
            (D / ((py_split text).length : ℚ)) ≤ D := by
          rw [Nat.cast_zero, zero_add, mul_comm, div_mul_cancel₀ D (ne_of_gt hlen)]
        obtain ⟨hmem, hchain⟩ :=
          wordcount_loop_inv (D / ((py_split text).length : ℚ)) D wpl ht
            (py_split text).length 0 (py_split text) hhyp
        have hbuild : build_subtitles_by_wordcount D text wpl =
            fix_last D (wordcount_loop (D / ((py_split text).length : ℚ)) D wpl
              (py_split text).length 0 (py_split text)) := by
          simp [build_subtitles_by_wordcount, hD, hw]
        rw [hbuild]
        exact ⟨fix_last_mem D _ (fun s hs => (hmem s hs).1),
          fix_last_chain D _ hchain⟩
  · exact ⟨repair_lines_mem _ 0, repair_lines_chain _ 0⟩

/-- Closed form of the wordcount loop: when the remaining words fill exactly
the time up to `D`, segment `k` (relative to chunk offset `i`) starts at
`(i + k·wpl)·t` and ends at `min D ((i + (k+1)·wpl)·t)`. -/
theorem wordcount_loop_get (t D : ℚ) (wpl : ℕ) (ht : 0 < t) :
    ∀ fuel (i : ℕ) rest, ((i : ℚ) + (rest.length : ℚ)) * t = D →
      ∀ k x, (wordcount_loop t D wpl fuel i rest).get? k = some x →
        x.1 = ((i : ℚ) + (k : ℚ) * (wpl : ℚ)) * t ∧
        x.2.1 = min D (((i : ℚ) + ((k : ℚ) + 1) * (wpl : ℚ)) * t) := by
  intro fuel
  induction fuel with
  | zero => intro i rest _ k x hx; simp [wordcount_loop] at hx
  | succ fuel ih =>
    intro i rest heq k x hx
    by_cases hstop : rest.take wpl = []
    · have hnil : wordcount_loop t D wpl (fuel + 1) i rest = [] := by
        rw [wordcount_loop, if_pos hstop]
      rw [hnil] at hx
      simp at hx
    · have hchead : min D (((i : ℚ) + ((rest.take wpl).length : ℚ)) * t) =
          min D (((i : ℚ) + ((0 : ℚ) + 1) * (wpl : ℚ)) * t) := by
        by_cases hfull : wpl ≤ rest.length
        · have : (rest.take wpl).length = wpl := by
            rw [List.length_take]; exact min_eq_left hfull
          rw [this]; ring_nf
        · have hclen : (rest.take wpl).length = rest.length := by
            rw [List.length_take]; exact min_eq_right (le_of_lt (not_le.mp hfull))
          have h1 : ((i : ℚ) + ((rest.take wpl).length : ℚ)) * t = D := by
            rw [hclen]; exact heq
          have h2 : D ≤ ((i : ℚ) + ((0 : ℚ) + 1) * (wpl : ℚ)) * t := by
            rw [← heq]
            refine mul_le_mul_of_nonneg_right ?_ ht.le
            have : (rest.length : ℚ) ≤ (wpl : ℚ) := by
              exact_mod_cast (le_of_lt (not_le.mp hfull))
            linarith
          rw [h1, min_self, min_eq_left h2]
      have hexp : wordcount_loop t D wpl (fuel + 1) i rest =
          ((i : ℚ) * t, min D (((i : ℚ) + ((rest.take wpl).length : ℚ)) * t),
            join_space (rest.take wpl)) ::
          wordcount_loop t D wpl fuel (i + wpl) (rest.drop wpl) := by
        rw [wordcount_loop, if_neg hstop]
      rw [hexp] at hx
      cases k with
      | zero =>
        rw [List.get?_cons_zero, Option.some_inj] at hx
        subst hx
        constructor
        · show (i : ℚ) * t = ((i : ℚ) + (0 : ℚ) * (wpl : ℚ)) * t
          ring
        · exact hchead
      | succ k =>
        rw [List.get?_cons_succ] at hx
        by_cases hdrop : rest.drop wpl = []
        · rw [hdrop, wordcount_loop_nil] at hx
          simp at hx
        · have hwle : wpl ≤ rest.length := by
            by_contra hcon
            exact hdrop (List.drop_eq_nil_of_le (le_of_lt (not_le.mp hcon)))
          have hkey : (((i + wpl : ℕ) : ℚ) + ((rest.drop wpl).length : ℚ)) * t = D := by
            rw [List.length_drop, ← heq]
            push_cast [Nat.cast_sub hwle]
            ring_nf
          have hih := ih (i + wpl) (rest.drop wpl) hkey k x hx
          constructor
          · rw [hih.1]
            push_cast
            ring
          · rw [hih.2]
            have harg : (((i + wpl : ℕ) : ℚ) + ((k : ℚ) + 1) * (wpl : ℚ)) * t =
                ((i : ℚ) + (((k + 1 : ℕ) : ℚ) + 1) * (wpl : ℚ)) * t := by
              push_cast
              ring
            rw [harg]

/-- The wordcount loop produces at least one segment on a non-empty word
list with positive chunk size and fuel. -/
theorem wordcount_loop_ne_nil (t D : ℚ) (wpl fuel i : ℕ) (rest : List String)
    (hrest : rest ≠ []) (hwpl : 0 < wpl) (hfuel : 0 < fuel) :
    wordcount_loop t D wpl fuel i rest ≠ [] := by
  cases fuel with
  | zero => exact absurd hfuel (lt_irrefl 0)
  | succ f =>
    rw [wordcount_loop]
    have hstop : ¬ rest.take wpl = [] := by
      simp only [List.take_eq_nil_iff, not_or]
      exact ⟨Nat.pos_iff_ne_zero.mp hwpl, hrest⟩
    rw [if_neg hstop]
    exact List.cons_ne_nil _ _

/-- With enough fuel, the final segment of the wordcount loop ends exactly
at `D`: its chunk reaches the last word and `(i + rest.length)·t = D`. -/
theorem wordcount_loop_last_end (t D : ℚ) (wpl : ℕ) (hwpl : 0 < wpl) :
    ∀ fuel (i : ℕ) rest, rest ≠ [] → rest.length ≤ fuel →
      ((i : ℚ) + (rest.length : ℚ)) * t = D →
      ∀ x ∈ (wordcount_loop t D wpl fuel i rest).getLast?, x.2.1 = D := by
  intro fuel
  induction fuel with
  | zero =>
    intro i rest hrest hlen _
    have h0 : rest.length = 0 := Nat.le_zero.mp hlen
    exact absurd (List.length_eq_zero.mp h0) hrest
  | succ fuel ih =>
    intro i rest hrest hlen heq x hx
    have hstop : ¬ rest.take wpl = [] := by
      simp only [List.take_eq_nil_iff, not_or]
      exact ⟨Nat.pos_iff_ne_zero.mp hwpl, hrest⟩
    have hexp : wordcount_loop t D wpl (fuel + 1) i rest =
        ((i : ℚ) * t, min D (((i : ℚ) + ((rest.take wpl).length : ℚ)) * t),
          join_space (rest.take wpl)) ::
        wordcount_loop t D wpl fuel (i + wpl) (rest.drop wpl) := by
      rw [wordcount_loop, if_neg hstop]
    rw [hexp] at hx
    by_cases hdrop : rest.drop wpl = []
    · have hcr : rest.length ≤ wpl := by
        by_contra hcon
        have := List.length_drop wpl rest
        rw [hdrop] at this
        simp at this
        omega
      have hclen : (rest.take wpl).length = rest.length := by
        rw [List.length_take]; exact min_eq_right hcr
      rw [hdrop, wordcount_loop_nil] at hx
      simp only [List.getLast?_singleton, Option.mem_def, Option.some_inj] at hx
      subst hx
      show min D (((i : ℚ) + ((rest.take wpl).length : ℚ)) * t) = D
      rw [hclen, heq, min_self]
    · have hwlt : wpl < rest.length := by
        have h1 : (rest.drop wpl).length ≠ 0 :=
          fun h => hdrop (List.length_eq_zero.mp h)
        rw [List.length_drop] at h1
        omega
      have hwle : wpl ≤ rest.length := hwlt.le
      have hfuel' : 0 < fuel := by omega
      have htne : wordcount_loop t D wpl fuel (i + wpl) (rest.drop wpl) ≠ [] :=
        wordcount_loop_ne_nil t D wpl fuel (i + wpl) (rest.drop wpl) hdrop hwpl hfuel'
      obtain ⟨b, l, hbl⟩ := List.exists_cons_of_ne_nil htne
      rw [hbl] at hx
      rw [List.getLast?_cons_cons] at hx
      rw [← hbl] at hx
      refine ih (i + wpl) (rest.drop wpl) hdrop (by rw [List.length_drop]; omega) ?_ x hx
      rw [List.length_drop, ← heq]
      push_cast [Nat.cast_sub hwle]
      ring_nf

/-- `fix_last` is the identity when the final end is already at least the
duration. -/
theorem fix_last_eq_self (D : ℚ) :
    ∀ l : List Seg, (∀ x ∈ l.getLast?, ¬ x.2.1 < D) → fix_last D l = l := by
  intro l
  induction l with
  | nil => intro _; rfl
  | cons x xs ih =>
    intro hlast
    cases xs with
    | nil =>
      obtain ⟨a, e, txt⟩ := x
      have : ¬ e < D := hlast (a, e, txt) (by simp)
      simp [fix_last, this]
    | cons y ys =>
      have heq : fix_last D (x :: y :: ys) = x :: fix_last D (y :: ys) := rfl
      rw [heq, ih]
      intro z hz
      exact hlast z (by rw [List.getLast?_cons_cons]; exact hz)

/-- C2: for the wordcount strategy with positive duration `D`, non-empty
word list and `N = words_per_line ≥ 1`, segment `k` starts at
`k·N·t_per_word` and ends at `min D ((k+1)·N·t_per_word)`, the last
segment's end is exactly `D`, and Scenario A (`D = 10`, ten words, `N = 5`)
yields exactly its two stated segments. -/
theorem C2_wordcount_schedule (D : ℚ) (text : String) (N : ℕ)
    (hD : 0 < D) (hw : py_split text ≠ []) (hN : 0 < N) :
    (∀ k x, (build_subtitles_by_wordcount D text N).get? k = some x →
        x.1 = (k : ℚ) * (N : ℚ) * (D / ((py_split text).length : ℚ)) ∧
        x.2.1 = min D (((k : ℚ) + 1) * (N : ℚ) * (D / ((py_split text).length : ℚ)))) ∧
    (∀ x ∈ (build_subtitles_by_wordcount D text N).getLast?, x.2.1 = D) ∧
    build_subtitles_by_wordcount 10 "one two three four five six seven eight nine ten" 5 =
      [(0, 5, "one two three four five"), (5, 10, "six seven eight nine ten")] := by
  have hlen : 0 < ((py_split text).length : ℚ) := by
    exact_mod_cast List.length_pos.mpr hw
  have ht : 0 < D / ((py_split text).length : ℚ) := div_pos hD hlen
  have heq : (((0 : ℕ) : ℚ) + ((py_split text).length : ℚ)) *
      (D / ((py_split text).length : ℚ)) = D := by
    rw [Nat.cast_zero, zero_add, mul_comm, div_mul_cancel₀ D (ne_of_gt hlen)]
  have hlast : ∀ x ∈ (wordcount_loop (D / ((py_split text).length : ℚ)) D N
      (py_split text).length 0 (py_split text)).getLast?, x.2.1 = D :=
    wordcount_loop_last_end (D / ((py_split text).length : ℚ)) D N hN
      (py_split text).length 0 (py_split text) hw (le_refl _) heq
  have hbuild : build_subtitles_by_wordcount D text N =
      wordcount_loop (D / ((py_split text).length : ℚ)) D N
        (py_split text).length 0 (py_split text) := by
    have h1 : build_subtitles_by_wordcount D text N =
        fix_last D (wordcount_loop (D / ((py_split text).length : ℚ)) D N
          (py_split text).length 0 (py_split text)) := by
      simp [build_subtitles_by_wordcount, not_le.mpr hD, hw]
    rw [h1]
    exact fix_last_eq_self D _ fun x hx => by rw [hlast x hx]; exact lt_irrefl D
  refine ⟨?_, ?_, by decide⟩
  · intro k x hx
    rw [hbuild] at hx
    obtain ⟨h1, h2⟩ := wordcount_loop_get (D / ((py_split text).length : ℚ)) D N ht
      (py_split text).length 0 (py_split text) heq k x hx
    constructor
    · rw [h1, Nat.cast_zero]
      ring
    · rw [h2, Nat.cast_zero]
      have harg : ((0 : ℚ) + ((k : ℚ) + 1) * (N : ℚ)) *
          (D / ((py_split text).length : ℚ)) =
          ((k : ℚ) + 1) * (N : ℚ) * (D / ((py_split text).length : ℚ)) := by
        ring
      rw [harg]
  · intro x hx
    rw [hbuild] at hx
    exact hlast x hx

/-- Witness for C2 at Scenario A itself (`D = 10`, the ten-word narration,
`N = 5`). -/
theorem C2_wordcount_schedule_witness :
    (∀ k x, (build_subtitles_by_wordcount 10
          "one two three four five six seven eight nine ten" 5).get? k = some x →
        x.1 = (k : ℚ) * (5 : ℕ) *
          (10 / ((py_split "one two three four five six seven eight nine ten").length : ℚ)) ∧
        x.2.1 = min 10 (((k : ℚ) + 1) * (5 : ℕ) *
          (10 / ((py_split "one two three four five six seven eight nine ten").length : ℚ)))) ∧
    (∀ x ∈ (build_subtitles_by_wordcount 10
        "one two three four five six seven eight nine ten" 5).getLast?, x.2.1 = 10) ∧
    build_subtitles_by_wordcount 10 "one two three four five six seven eight nine ten" 5 =
      [(0, 5, "one two three four five"), (5, 10, "six seven eight nine ten")] :=
  C2_wordcount_schedule 10 "one two three four five six seven eight nine ten" 5
    (by norm_num) (by decide) (by norm_num)

/-- Scanning a whitespace-free block just extends the accumulator. -/
theorem tokensAux_append_word :
    ∀ (cs : List Char), (∀ c ∈ cs, c.isWhitespace = false) →
      ∀ rest acc, tokensAux (cs ++ rest) acc = tokensAux rest (acc ++ cs) := by
  intro cs
  induction cs with
  | nil => intro _ rest acc; simp
  | cons c cs ih =>
    intro hcs rest acc
    have hc : c.isWhitespace = false := hcs c (by simp)
    have hcs' : ∀ x ∈ cs, x.isWhitespace = false := fun x hx => hcs x (by simp [hx])
    rw [List.cons_append,
      show tokensAux (c :: (cs ++ rest)) acc = tokensAux (cs ++ rest) (acc ++ [c]) from by
        simp [tokensAux, hc],
      ih hcs' rest (acc ++ [c])]
    simp

/-- Scanning a space emits the accumulated word. -/
theorem tokensAux_cons_space (rest acc : List Char) :
    tokensAux (' ' :: rest) acc =
      (if acc = [] then [] else [String.mk acc]) ++ tokensAux rest [] := by
  have hsp : (' ').isWhitespace = true := by decide
  simp [tokensAux, hsp]

/-- Splitting a good word followed by a space yields that word first. -/
theorem py_split_word_space (w : String) (hw : good_word w) (rest : List Char) :
    tokensAux (w.data ++ ' ' :: rest) [] = w :: tokensAux rest [] := by
  rw [tokensAux_append_word w.data hw.2 (' ' :: rest) []]
  simp only [List.nil_append]
  rw [tokensAux_cons_space, if_neg hw.1]
  rfl

/-- Splitting exactly one good word yields that word. -/
theorem py_split_word_only (w : String) (hw : good_word w) :
    tokensAux w.data [] = [w] := by
  have h := tokensAux_append_word w.data hw.2 [] []
  simp only [List.append_nil, List.nil_append] at h
  rw [h, tokensAux, if_neg hw.1]

/-- Characters of a space-joined non-trivial list. -/
theorem join_space_data_cons (w : String) (ws : List String) (h : ws ≠ []) :
    (join_space (w :: ws)).data = w.data ++ ' ' :: (join_space ws).data := by
  cases ws with
  | nil => exact absurd rfl h
  | cons y ys =>
    rw [show (join_space (w :: y :: ys)).data =
        (w.data ++ [' ']) ++ (join_space (y :: ys)).data from rfl,
      List.append_assoc]
    rfl

/-- Splitting a good phrase followed by a space recovers the phrase's words
first. -/
theorem py_split_phrase :
    ∀ ws : List String, ws ≠ [] → (∀ w ∈ ws, good_word w) →
      ∀ rest, tokensAux ((join_space ws).data ++ ' ' :: rest) [] =
        ws ++ tokensAux rest [] := by
  intro ws
  induction ws with
  | nil => intro h; exact absurd rfl h
  | cons w ws ih =>
    intro _ hgood rest
    cases ws with
    | nil =>
      rw [show join_space [w] = w from rfl,
        py_split_word_space w (hgood w (by simp)) rest]
      rfl
    | cons y ys =>
      rw [join_space_data_cons w (y :: ys) (by simp), List.append_assoc,
        List.cons_append,
        py_split_word_space w (hgood w (by simp)),
        ih (by simp) (fun x hx => hgood x (by simp [hx])) rest]
      rfl

/-- Splitting a space-join of good words recovers exactly those words. -/
theorem py_split_join_eq :
    ∀ ws : List String, (∀ w ∈ ws, good_word w) → py_split (join_space ws) = ws := by
  intro ws
  induction ws with
  | nil => intro _; rfl
  | cons w ws ih =>
    intro hgood
    cases ws with
    | nil =>
      rw [show join_space [w] = w from rfl]
      exact py_split_word_only w (hgood w (by simp))
    | cons y ys =>
      show tokensAux (join_space (w :: y :: ys)).data [] = w :: y :: ys
      rw [join_space_data_cons w (y :: ys) (by simp),
        py_split_word_space w (hgood w (by simp))]
      exact congrArg (List.cons w) (ih (fun x hx => hgood x (by simp [hx])))

/-- Every token produced by the split is a good word (given a whitespace-free
accumulator). -/
theorem tokensAux_good :
    ∀ l acc, (∀ c ∈ acc, c.isWhitespace = false) →
      ∀ w ∈ tokensAux l acc, good_word w := by
  intro l
  induction l with
  | nil =>
    intro acc hacc w hw
    by_cases h : acc = []
    · simp [tokensAux, h] at hw
    · simp only [tokensAux, if_neg h, List.mem_singleton] at hw
      subst hw
      exact ⟨h, hacc⟩
  | cons c cs ih =>
    intro acc hacc w hw
    by_cases hc : c.isWhitespace = true
    · rw [show tokensAux (c :: cs) acc =
          (if acc = [] then [] else [String.mk acc]) ++ tokensAux cs [] from by
            simp [tokensAux, hc]] at hw
      rcases List.mem_append.mp hw with h1 | h1
      · by_cases h : acc = []
        · simp [h] at h1
        · simp only [if_neg h, List.mem_singleton] at h1
          subst h1
          exact ⟨h, hacc⟩
      · exact ih [] (by simp) w h1
    · have hc' : c.isWhitespace = false := by
        exact Bool.not_eq_true _ ▸ (by simpa using hc)
      rw [show tokensAux (c :: cs) acc = tokensAux cs (acc ++ [c]) from by
        simp [tokensAux, hc']] at hw
      refine ih (acc ++ [c]) ?_ w hw
      intro x hx
      rcases List.mem_append.mp hx with h1 | h1
      · exact hacc x h1
      · simp at h1; subst h1; exact hc'

/-- The wrap loop never returns an empty line list once a line is open. -/
theorem wrap_loop_ne_nil (measure : String → ℚ) (budget : ℚ) :
    ∀ ws line, line ≠ [] → wrap_loop measure budget ws line ≠ [] := by
  intro ws
  induction ws with
  | nil => intro line h; simp [wrap_loop, h]
  | cons w ws ih =>
    intro line h
    by_cases hfit : measure (join_space (line ++ [w])) ≤ budget
    · rw [show wrap_loop measure budget (w :: ws) line =
          wrap_loop measure budget ws (line ++ [w]) from by simp [wrap_loop, hfit]]
      exact ih _ (by simp)
    · rw [show wrap_loop measure budget (w :: ws) line =
          (if line = [] then [] else [join_space line]) ++
            wrap_loop measure budget ws [w] from by simp [wrap_loop, hfit]]
      intro hcon
      exact ih [w] (by simp) (List.append_eq_nil.mp hcon).2

/-- The wrap loop emits exactly the open line followed by the remaining
words, up to re-splitting the joined lines. -/
theorem wrap_loop_tokens (measure : String → ℚ) (budget : ℚ) :
    ∀ ws line, (∀ w ∈ ws, good_word w) → (∀ w ∈ line, good_word w) →
      py_split (join_space (wrap_loop measure budget ws line)) = line ++ ws := by
  intro ws
  induction ws with
  | nil =>
    intro line _ hline
    by_cases h : line = []
    · subst h; rfl
    · rw [show wrap_loop measure budget [] line = [join_space line] from by
        simp [wrap_loop, h],
        show join_space [join_space line] = join_space line from rfl,
        py_split_join_eq line hline, List.append_nil]
  | cons w ws ih =>
    intro line hws hline
    have hw : good_word w := hws w (by simp)
    have hws' : ∀ x ∈ ws, good_word x := fun x hx => hws x (by simp [hx])
    by_cases hfit : measure (join_space (line ++ [w])) ≤ budget
    · rw [show wrap_loop measure budget (w :: ws) line =
          wrap_loop measure budget ws (line ++ [w]) from by simp [wrap_loop, hfit]]
      rw [ih (line ++ [w]) hws' ?side]
      · simp
      case side =>
        intro x hx
        rcases List.mem_append.mp hx with h1 | h1
        · exact hline x h1
        · simp at h1; subst h1; exact hw
    · rw [show wrap_loop measure budget (w :: ws) line =
          (if line = [] then [] else [join_space line]) ++
            wrap_loop measure budget ws [w] from by simp [wrap_loop, hfit]]
      have hwgood : ∀ x ∈ [w], good_word x := by
        intro x hx; simp at hx; subst hx; exact hw
      by_cases h : line = []
      · subst h
        simpa using ih [w] hws' hwgood
      · rw [if_neg h]
        obtain ⟨b, l, hbl⟩ :=
          List.exists_cons_of_ne_nil (wrap_loop_ne_nil measure budget ws [w] (by simp))
        rw [hbl]
        show tokensAux (join_space (join_space line :: b :: l)).data [] = line ++ w :: ws
        rw [join_space_data_cons (join_space line) (b :: l) (by simp),
          py_split_phrase line h hline ((join_space (b :: l)).data)]
        rw [← hbl]
        have hrec : py_split (join_space (wrap_loop measure budget ws [w])) = [w] ++ ws :=
          ih [w] hws' hwgood
        rw [show tokensAux (join_space (wrap_loop measure budget ws [w])).data [] =
          py_split (join_space (wrap_loop measure budget ws [w])) from rfl, hrec]
        simp

/-- C10: wrapping never loses, duplicates or reorders words — joining the
wrapped lines with single spaces and re-splitting on whitespace yields
exactly the original token sequence of the input text. -/
theorem C10_wrap_preserves_tokens (measure : String → ℚ) (budget : ℚ) (text : String) :
    py_split (join_space (wrap_text measure budget text)) = py_split text := by
  have h := wrap_loop_tokens measure budget (py_split text) []
    (tokensAux_good text.data [] (by simp)) (by simp)
  simpa using h

end ClaimTheorems

end SCE
